import Mathlib

/-!
Shallow embedding of `src/polaris/health/state/pool.py` (polaris-gslb):
the `PoolMember` / `Pool` data model, the derived pool health status,
the configuration loader `Pool.from_config_dict`, and the distribution
table builder `Pool.to_dist_dict`.

Modelling conventions:
* Python's tri-state member status `None` / `True` / `False` is `Option Bool`;
  Python truthiness of that value is `statusTruthy`.
* Python dicts keyed by IP / table name are association lists preserving
  insertion order (assignment to an existing key updates in place, a new key
  is appended at the end), with lookup returning the first match.
* The dist-table dict keys are `Option String`: a member's `region` field
  (which may be Python `None`) is used directly as a dict key, and the
  literal key `'_default'` is `some "_default"`.
* `random.shuffle` and `random.random()` are modelled by an explicit
  permutation function and an explicit rational in `[0, 1)` passed as
  arguments. The rational is an exact numerator/denominator pair
  `rnum / rden` of naturals (drawn in `[0, 1)` when `rnum < rden`), so that
  `int(random.random() * n)` — the floor of a nonnegative value — is the
  natural floor-division `rnum * n / rden`.
* External collaborators (the monitor registry, `ipaddress` parsing and the
  topology lookup `polaris.util.topology.get_region`) are parameters of the
  loader, per the spec's interface boundary.
-/

def MAX_POOL_MEMBER_NAME_LEN : Nat := 256

def MAX_POOL_MEMBER_WEIGHT : Int := 99

def MAX_POOL_NAME_LEN : Nat := 256

def MAX_REGION_LEN : Nat := 256

def MAX_MAX_ADDRS_RETURNED : Int := 32

/-- Python truthiness of a member `status` value (`None`/`True`/`False`). -/
def statusTruthy : Option Bool → Bool
  | some b => b
  | none => false

/-- A backend server, member of a pool (`PoolMember.__init__` fields; the
monitor-owned fields `last_probe_issued_time` and `retries_left` are never
read by the modelled operations and are omitted). -/
structure PoolMember where
  ip : String
  name : String
  weight : Nat
  region : Option String
  status : Option Bool
deriving DecidableEq

/-- A pool of backend servers (`Pool.__init__` fields; `monitor` is an
external collaborator kept only as an opaque name). `members` is the
IP-keyed dict, as an insertion-ordered association list. -/
structure Pool where
  name : String
  monitor : String
  members : List (String × PoolMember)
  lb_method : String
  fallback : String
  max_addrs_returned : Nat
  last_status : Option Bool
deriving DecidableEq

def available_lb_methods : List String := ["wrr", "twrr"]

/-- `Pool.status`: return `True` at the first member whose status is truthy,
`False` otherwise. -/
def Pool.status (p : Pool) : Bool :=
  p.members.any fun e => statusTruthy e.2.status

/-- Eligibility test of the member loop of `to_dist_dict` (lines 351-352):
`member.status or (not self.status and self.fallback == "any")`. -/
def memberEligible (pstatus : Bool) (fallback : String) (m : PoolMember) : Bool :=
  statusTruthy m.status || (!pstatus && fallback == "any")

/-- Keys of the `dist_tables` dict: `none` is the Python `None` region,
`some s` a string key. -/
abbrev TKey := Option String

def defaultKey : TKey := some "_default"

/-- One distribution table while being built (`rotation`, `num_unique_addrs`). -/
structure DistTable where
  rotation : List String
  num_unique_addrs : Nat
deriving DecidableEq

/-- Dict lookup: first entry with the given key. -/
def getTable {α : Type} : List (TKey × α) → TKey → Option α
  | [], _ => none
  | (k', t) :: rest, k => if k' = k then some t else getTable rest k

/-- Dict assignment: update the first entry with the key in place, else
append at the end (Python dict insertion-order semantics). -/
def setTable {α : Type} : List (TKey × α) → TKey → α → List (TKey × α)
  | [], k, t => [(k, t)]
  | (k', t') :: rest, k, t =>
    if k' = k then (k, t) :: rest else (k', t') :: setTable rest k t

/-- In-place mutation of the value at a key (no-op when absent; every use
below is at a key that provably exists, matching Python's in-place updates). -/
def modifyTable {α : Type} : List (TKey × α) → TKey → (α → α) → List (TKey × α)
  | [], _, _ => []
  | (k', t) :: rest, k, f =>
    if k' = k then (k', f t) :: rest else (k', t) :: modifyTable rest k f

def keysOf {α : Type} (ts : List (TKey × α)) : List TKey :=
  ts.map Prod.fst

abbrev Tables := List (TKey × DistTable)

/-- One iteration of the `for i in range(member.weight)` body
(lines 362-377): append the member IP to `_default.rotation`; when
`lb_method == 'twrr' and self.status`, lazily create the region's table and
append the IP there, incrementing the regional `num_unique_addrs` (note:
this increment is inside the per-weight loop in the source). -/
def weightIter (lbm : String) (pstatus : Bool) (member_ip : String)
    (region : TKey) (ts : Tables) : Tables :=
  let ts1 := modifyTable ts defaultKey fun t =>
    { t with rotation := t.rotation ++ [member_ip] }
  if lbm = "twrr" ∧ pstatus = true then
    let ts2 :=
      if getTable ts1 region = none then
        setTable ts1 region { rotation := [], num_unique_addrs := 0 }
      else ts1
    modifyTable ts2 region fun t =>
      { rotation := t.rotation ++ [member_ip],
        num_unique_addrs := t.num_unique_addrs + 1 }
  else ts1

/-- `for i in range(member.weight)` (line 362). -/
def weightLoop (lbm : String) (pstatus : Bool) (member_ip : String)
    (region : TKey) : Nat → Tables → Tables
  | 0, ts => ts
  | w + 1, ts => weightLoop lbm pstatus member_ip region w
      (weightIter lbm pstatus member_ip region ts)

/-- Body of the member loop of `to_dist_dict` (lines 346-377): skip
ineligible members, skip weight-0 members before any table mutation,
increment `_default.num_unique_addrs` once, then run the weight loop. -/
def memberStep (lbm : String) (pstatus : Bool) (fallback : String)
    (ts : Tables) (e : String × PoolMember) : Tables :=
  if memberEligible pstatus fallback e.2 then
    if e.2.weight = 0 then ts
    else
      let ts1 := modifyTable ts defaultKey fun t =>
        { t with num_unique_addrs := t.num_unique_addrs + 1 }
      weightLoop lbm pstatus e.1 e.2.region e.2.weight ts1
  else ts

/-- The dist-tables dict after the member loop, starting from
`{'_default': {'rotation': [], 'num_unique_addrs': 0}}` (lines 341-377). -/
def buildDistTables (p : Pool) : Tables :=
  p.members.foldl (memberStep p.lb_method p.status p.fallback)
    [(defaultKey, { rotation := [], num_unique_addrs := 0 })]

/-- A finished distribution table (after shuffling and index assignment). -/
structure FinTable where
  rotation : List String
  num_unique_addrs : Nat
  index : Nat
deriving DecidableEq

/-- Lines 379-388: shuffle the rotation and set
`index = int(random.random() * len(rotation))`, with `random.random()`
the exact rational `rnum / rden` (so the truncation of the nonnegative
product is the floor-division `rnum * len / rden`). -/
def finishTable (shuffle : List String → List String) (rnum rden : Nat)
    (t : DistTable) : FinTable :=
  let rot := shuffle t.rotation
  { rotation := rot,
    num_unique_addrs := t.num_unique_addrs,
    index := rnum * rot.length / rden }

/-- The snapshot returned by `to_dist_dict`. -/
structure DistDict where
  lb_method : String
  max_addrs_returned : Nat
  dist_tables : List (TKey × FinTable)
deriving DecidableEq

/-- `Pool.to_dist_dict` (lines 292-392), with the random shuffle and the
`random.random()` draw passed explicitly. -/
def Pool.to_dist_dict (p : Pool) (shuffle : List String → List String)
    (rnum rden : Nat) : DistDict :=
  { lb_method :=
      if p.status = false ∧ p.fallback = "any" then "wrr" else p.lb_method,
    max_addrs_returned := p.max_addrs_returned,
    dist_tables :=
      (buildDistTables p).map fun kt => (kt.1, finishTable shuffle rnum rden kt.2) }

/-- Lookup of a finished table in a snapshot. -/
def finTable (d : DistDict) (k : TKey) : Option FinTable :=
  getTable d.dist_tables k

/-- Multiset-count of an IP in the rotation of the table at key `k`
(0 when the table is absent). -/
def finCount (d : DistDict) (k : TKey) (x : String) : Nat :=
  match finTable d k with
  | some t => t.rotation.count x
  | none => 0

/-- Count of an IP in a table of the dict being built. -/
def tcount (ts : Tables) (k : TKey) (x : String) : Nat :=
  match getTable ts k with
  | some t => t.rotation.count x
  | none => 0

/-- `num_unique_addrs` of a table of the dict being built. -/
def nucount (ts : Tables) (k : TKey) : Nat :=
  match getTable ts k with
  | some t => t.num_unique_addrs
  | none => 0

/-- One member entry of the `members` config mapping (`{name, weight}`). -/
structure MemberConfig where
  name : String
  weight : Int
deriving DecidableEq

/-- The pool config dict consumed by `Pool.from_config_dict`; optional keys
are `Option`, `members` is the IP-keyed mapping in insertion order
(`monitor_params` values are opaque, only presence/emptiness matter). -/
structure PoolConfig where
  monitor : String
  monitor_params : Option (List (String × String))
  lb_method : String
  members : List (String × MemberConfig)
  fallback : Option String
  max_addrs_returned : Option Int
deriving DecidableEq

/-- Python truthiness of a region lookup result: `None` and the empty
string are falsy (`if not region`). -/
def regionTruthy (r : Option String) : Bool :=
  !(r.getD "" == "")

/-- `PoolMember.__init__` validation (lines 38-104). The `ipaddress` parse
plus the v4 check is abstracted as the predicate `valid_ipv4`; the
`isinstance` checks are subsumed by the typed config. -/
def mkPoolMember (valid_ipv4 : String → Bool) (ip name : String)
    (weight : Int) (region : Option String) : Except String PoolMember :=
  if valid_ipv4 ip = false then
    .error ("\"" ++ ip ++ "\" does not appear to be a valid IP address")
  else if name.length > MAX_POOL_MEMBER_NAME_LEN then
    .error ("\"" ++ name ++ "\" name must be a str, 256 chars max")
  else if weight < 0 ∨ weight > MAX_POOL_MEMBER_WEIGHT then
    .error ("\"" ++ name ++ "\" weight must be an int between 0 and 99")
  else if (match region with
           | some r => decide (r.length > MAX_REGION_LEN)
           | none => false) then
    .error ("\"" ++ name ++ "\" region must be a str, 256 chars max")
  else
    .ok { ip := ip, name := name, weight := weight.toNat,
          region := region, status := none }

/-- `Pool.__init__` validation (lines 118-185). -/
def mkPool (name : String) (monitor : String)
    (members : List (String × PoolMember)) (lb_method fallback : String)
    (max_addrs_returned : Int) : Except String Pool :=
  if name.length > MAX_POOL_NAME_LEN then
    .error ("\"" ++ name ++ "\" name must be a str, 256 chars max")
  else if available_lb_methods.contains lb_method = false then
    .error ("lb_method \"" ++ lb_method ++ "\" must be a str one of \"wrr\" \"twrr\"")
  else if ¬(fallback = "any" ∨ fallback = "refuse") then
    .error ("fallback \"" ++ fallback ++ "\" must be a str \"any\" or \"refuse\"")
  else if max_addrs_returned < 1 ∨ max_addrs_returned > MAX_MAX_ADDRS_RETURNED then
    .error ("\"" ++ name ++ "\" max_addrs_returned must be an int between 1 and 32")
  else
    .ok { name := name, monitor := monitor, members := members,
          lb_method := lb_method, fallback := fallback,
          max_addrs_returned := max_addrs_returned.toNat,
          last_status := none }

/-- The member loop of `from_config_dict` (lines 250-269): for each config
entry in order, under `lb_method == 'twrr'` resolve the region via the
topology lookup and fail when it is falsy, then construct the `PoolMember`
(first failure aborts the whole loop). -/
def buildMembers (valid_ipv4 : String → Bool)
    (get_region : String → Option String) (poolName lb_method : String) :
    List (String × MemberConfig) → Except String (List (String × PoolMember))
  | [] => .ok []
  | (member_ip, mc) :: rest =>
    match (if lb_method = "twrr" then
        (if regionTruthy (get_region member_ip) = false then
          .error ("Unable to determine region for pool " ++ poolName ++
                  " member " ++ member_ip ++ "(" ++ mc.name ++ ")")
        else .ok (get_region member_ip))
      else (.ok none : Except String (Option String))) with
    | .error e => .error e
    | .ok region =>
      match mkPoolMember valid_ipv4 member_ip mc.name mc.weight region with
      | .error e => .error e
      | .ok pm =>
        match buildMembers valid_ipv4 get_region poolName lb_method rest with
        | .error e => .error e
        | .ok restMembers => .ok ((member_ip, pm) :: restMembers)

/-- `Pool.from_config_dict` (lines 204-290). The monitor registry
(`monitors.registered`), the IP parser and the topology lookup
(`polaris.util.topology.get_region`) are external collaborators passed as
parameters; monitor instantiation is kept as the opaque monitor name. -/
def Pool.from_config_dict (registered : List String)
    (valid_ipv4 : String → Bool) (get_region : String → Option String)
    (name : String) (obj : PoolConfig) : Except String Pool :=
  if registered.contains obj.monitor = false then
    .error ("unknown monitor \"" ++ obj.monitor ++ "\"")
  else if obj.monitor_params = some [] then
    .error "monitor_params should not be empty"
  else if obj.members = [] then
    .error "configuration dictionary must contain a non-empty members key"
  else
    match buildMembers valid_ipv4 get_region name obj.lb_method obj.members with
    | .error e => .error e
    | .ok members =>
      mkPool name obj.monitor members obj.lb_method
        (obj.fallback.getD "any") (obj.max_addrs_returned.getD 1)

theorem getTable_setTable {α : Type} (ts : List (TKey × α)) (k k' : TKey)
    (t : α) :
    getTable (setTable ts k t) k' = if k = k' then some t else getTable ts k' := by
  induction ts with
  | nil => simp [getTable, setTable]
  | cons e rest ih =>
    obtain ⟨a, b⟩ := e
    by_cases hak : a = k
    · subst hak
      by_cases hkk : a = k' <;> simp [getTable, setTable, hkk]
    · by_cases hak' : a = k'
      · subst hak'
        simp [getTable, setTable, hak, Ne.symm hak]
      · simp [getTable, setTable, hak, hak', ih]

theorem getTable_modifyTable {α : Type} (ts : List (TKey × α)) (k k' : TKey)
    (f : α → α) :
    getTable (modifyTable ts k f) k' =
      if k = k' then (getTable ts k').map f else getTable ts k' := by
  induction ts with
  | nil => simp [getTable, modifyTable]
  | cons e rest ih =>
    obtain ⟨a, b⟩ := e
    by_cases hak : a = k
    · subst hak
      by_cases hkk : a = k' <;> simp [getTable, modifyTable, hkk, ih]
    · by_cases hak' : a = k'
      · subst hak'
        simp [getTable, modifyTable, hak, Ne.symm hak]
      · simp [getTable, modifyTable, hak, hak', ih]

theorem keysOf_nil {α : Type} : keysOf ([] : List (TKey × α)) = [] := rfl

theorem keysOf_cons {α : Type} (a : TKey) (b : α) (rest : List (TKey × α)) :
    keysOf ((a, b) :: rest) = a :: keysOf rest := rfl

theorem keysOf_modifyTable {α : Type} (ts : List (TKey × α)) (k : TKey)
    (f : α → α) : keysOf (modifyTable ts k f) = keysOf ts := by
  induction ts with
  | nil => rfl
  | cons e rest ih =>
    obtain ⟨a, b⟩ := e
    by_cases hak : a = k <;> simp [modifyTable, hak, keysOf_cons, ih]

theorem mem_keysOf_setTable {α : Type} (ts : List (TKey × α)) (k k' : TKey)
    (t : α) :
    k' ∈ keysOf (setTable ts k t) ↔ k' = k ∨ k' ∈ keysOf ts := by
  induction ts with
  | nil => simp [setTable, keysOf_cons, keysOf_nil]
  | cons e rest ih =>
    obtain ⟨a, b⟩ := e
    by_cases hak : a = k
    · subst hak
      simp [setTable, keysOf_cons, List.mem_cons]
    · simp [setTable, hak, keysOf_cons, List.mem_cons, ih]
      tauto

theorem getTable_isSome_iff {α : Type} (ts : List (TKey × α)) (k : TKey) :
    (getTable ts k).isSome = true ↔ k ∈ keysOf ts := by
  induction ts with
  | nil => simp [getTable, keysOf]
  | cons e rest ih =>
    obtain ⟨a, b⟩ := e
    by_cases hak : a = k
    · subst hak
      simp [getTable, keysOf]
    · simp [getTable, keysOf, hak, ih]
      intro h
      exact absurd h.symm hak

theorem getTable_map {α β : Type} (ts : List (TKey × α)) (f : α → β)
    (k : TKey) :
    getTable (ts.map fun kt => (kt.1, f kt.2)) k = (getTable ts k).map f := by
  induction ts with
  | nil => simp [getTable]
  | cons e rest ih =>
    obtain ⟨a, b⟩ := e
    by_cases hak : a = k <;> simp [getTable, hak, ih]

theorem tcount_modify_append (ts : Tables) (k' k : TKey) (x ip : String)
    (f : DistTable → DistTable)
    (hf : ∀ t, (f t).rotation = t.rotation ++ [ip])
    (hp : k = k' → (getTable ts k').isSome = true) :
    tcount (modifyTable ts k' f) k x =
      tcount ts k x + (if k = k' ∧ x = ip then 1 else 0) := by
  unfold tcount
  rw [getTable_modifyTable]
  by_cases hk : k = k'
  · obtain ⟨t0, ht0⟩ := Option.isSome_iff_exists.mp (hp hk)
    subst hk
    rw [if_pos rfl, ht0]
    simp [hf, List.count_append, List.count_singleton', eq_comm]
  · rw [if_neg fun h => hk h.symm, if_neg fun h => hk h.1]
    exact (Nat.add_zero _).symm

theorem tcount_modify_rot_eq (ts : Tables) (k' k : TKey) (x : String)
    (f : DistTable → DistTable) (hf : ∀ t, (f t).rotation = t.rotation) :
    tcount (modifyTable ts k' f) k x = tcount ts k x := by
  unfold tcount
  rw [getTable_modifyTable]
  by_cases hk : k' = k
  · subst hk
    cases hg : getTable ts k' <;> simp [hf]
  · rw [if_neg hk]

theorem tcount_weightIter (lbm : String) (ps : Bool) (ip : String) (r : TKey)
    (ts : Tables) (hd : defaultKey ∈ keysOf ts) (k : TKey) (x : String) :
    tcount (weightIter lbm ps ip r ts) k x
      = tcount ts k x + (if k = defaultKey ∧ x = ip then 1 else 0)
        + (if lbm = "twrr" ∧ ps = true ∧ k = r ∧ x = ip then 1 else 0) := by
  have hsome : (getTable ts defaultKey).isSome = true :=
    (getTable_isSome_iff ts defaultKey).mpr hd
  unfold weightIter
  have h1 : ∀ k₀ x₀, tcount
      (modifyTable ts defaultKey fun t => { t with rotation := t.rotation ++ [ip] }) k₀ x₀
      = tcount ts k₀ x₀ + (if k₀ = defaultKey ∧ x₀ = ip then 1 else 0) := by
    intro k₀ x₀
    exact tcount_modify_append ts defaultKey k₀ x₀ ip _ (fun t => rfl)
      (fun _ => hsome)
  set ts1 := modifyTable ts defaultKey
    (fun t => { t with rotation := t.rotation ++ [ip] }) with hts1
  by_cases htw : lbm = "twrr" ∧ ps = true
  · rw [if_pos htw]
    set ts2 := if getTable ts1 r = none then
        setTable ts1 r { rotation := [], num_unique_addrs := 0 } else ts1 with hts2
    have h2 : ∀ x₀, tcount ts2 r x₀ = tcount ts1 r x₀ ∧
        (∀ k₀, k₀ ≠ r → tcount ts2 k₀ x₀ = tcount ts1 k₀ x₀) := by
      intro x₀
      rw [hts2]
      by_cases hc : getTable ts1 r = none
      · rw [if_pos hc]
        constructor
        · unfold tcount
          rw [getTable_setTable, if_pos rfl, hc]
          simp
        · intro k₀ hk₀
          unfold tcount
          rw [getTable_setTable, if_neg fun h => hk₀ h.symm]
      · rw [if_neg hc]
        exact ⟨rfl, fun _ _ => rfl⟩
    have hr2 : (getTable ts2 r).isSome = true := by
      rw [hts2]
      by_cases hc : getTable ts1 r = none
      · rw [if_pos hc, getTable_setTable, if_pos rfl]
        rfl
      · rw [if_neg hc]
        exact Option.isSome_iff_ne_none.mpr hc
    have h3 : tcount (modifyTable ts2 r fun t =>
        { rotation := t.rotation ++ [ip], num_unique_addrs := t.num_unique_addrs + 1 }) k x
        = tcount ts2 k x + (if k = r ∧ x = ip then 1 else 0) :=
      tcount_modify_append ts2 r k x ip _ (fun t => rfl) (fun h => h ▸ hr2)
    rw [h3]
    have h2' : tcount ts2 k x = tcount ts1 k x := by
      by_cases hkr : k = r
      · subst hkr
        exact (h2 x).1
      · exact (h2 x).2 k hkr
    rw [h2', h1]
    simp [htw.1, htw.2]
  · rw [if_neg htw, h1]
    have hz : (if lbm = "twrr" ∧ ps = true ∧ k = r ∧ x = ip then 1 else 0) = 0 :=
      if_neg fun h => htw ⟨h.1, h.2.1⟩
    rw [hz, Nat.add_zero]

theorem nucount_modify_nu_eq (ts : Tables) (k' k : TKey)
    (f : DistTable → DistTable)
    (hf : ∀ t, (f t).num_unique_addrs = t.num_unique_addrs) :
    nucount (modifyTable ts k' f) k = nucount ts k := by
  unfold nucount
  rw [getTable_modifyTable]
  by_cases hk : k' = k
  · subst hk
    cases hg : getTable ts k' <;> simp [hf]
  · rw [if_neg hk]

theorem nucount_modify_inc (ts : Tables) (k' k : TKey)
    (f : DistTable → DistTable)
    (hf : ∀ t, (f t).num_unique_addrs = t.num_unique_addrs + 1)
    (hp : k = k' → (getTable ts k').isSome = true) :
    nucount (modifyTable ts k' f) k = nucount ts k + (if k = k' then 1 else 0) := by
  unfold nucount
  rw [getTable_modifyTable]
  by_cases hk : k = k'
  · obtain ⟨t0, ht0⟩ := Option.isSome_iff_exists.mp (hp hk)
    subst hk
    rw [if_pos rfl, if_pos rfl, ht0]
    simp [hf]
  · rw [if_neg fun h => hk h.symm, if_neg hk, Nat.add_zero]

theorem nucount_weightIter (lbm : String) (ps : Bool) (ip : String) (r : TKey)
    (ts : Tables) (k : TKey) :
    nucount (weightIter lbm ps ip r ts) k
      = nucount ts k + (if lbm = "twrr" ∧ ps = true ∧ k = r then 1 else 0) := by
  unfold weightIter
  have h1 : ∀ k₀, nucount
      (modifyTable ts defaultKey fun t => { t with rotation := t.rotation ++ [ip] }) k₀
      = nucount ts k₀ :=
    fun k₀ => nucount_modify_nu_eq ts defaultKey k₀ _ (fun t => rfl)
  set ts1 := modifyTable ts defaultKey
    (fun t => { t with rotation := t.rotation ++ [ip] }) with hts1
  by_cases htw : lbm = "twrr" ∧ ps = true
  · rw [if_pos htw]
    set ts2 := if getTable ts1 r = none then
        setTable ts1 r { rotation := [], num_unique_addrs := 0 } else ts1 with hts2
    have h2 : ∀ k₀, nucount ts2 k₀ = nucount ts1 k₀ := by
      intro k₀
      rw [hts2]
      by_cases hc : getTable ts1 r = none
      · rw [if_pos hc]
        unfold nucount
        rw [getTable_setTable]
        by_cases hrk : r = k₀
        · subst hrk
          rw [if_pos rfl, hc]
        · rw [if_neg hrk]
      · rw [if_neg hc]
    have hr2 : (getTable ts2 r).isSome = true := by
      rw [hts2]
      by_cases hc : getTable ts1 r = none
      · rw [if_pos hc, getTable_setTable, if_pos rfl]
        rfl
      · rw [if_neg hc]
        exact Option.isSome_iff_ne_none.mpr hc
    have h3 : nucount (modifyTable ts2 r fun t =>
        { rotation := t.rotation ++ [ip], num_unique_addrs := t.num_unique_addrs + 1 }) k
        = nucount ts2 k + (if k = r then 1 else 0) :=
      nucount_modify_inc ts2 r k _ (fun t => rfl) (fun h => h ▸ hr2)
    rw [h3, h2, h1]
    simp [htw.1, htw.2]
  · rw [if_neg htw, h1]
    have hz : (if lbm = "twrr" ∧ ps = true ∧ k = r then 1 else 0) = 0 :=
      if_neg fun h => htw ⟨h.1, h.2.1⟩
    rw [hz, Nat.add_zero]

theorem mem_keysOf_weightIter (lbm : String) (ps : Bool) (ip : String)
    (r : TKey) (ts : Tables) (k : TKey) :
    k ∈ keysOf (weightIter lbm ps ip r ts) ↔
      (lbm = "twrr" ∧ ps = true ∧ k = r) ∨ k ∈ keysOf ts := by
  unfold weightIter
  set ts1 := modifyTable ts defaultKey
    (fun t => { t with rotation := t.rotation ++ [ip] }) with hts1
  have hk1 : keysOf ts1 = keysOf ts := keysOf_modifyTable ts defaultKey _
  by_cases htw : lbm = "twrr" ∧ ps = true
  · rw [if_pos htw]
    by_cases hc : getTable ts1 r = none
    · rw [if_pos hc]
      rw [show modifyTable (setTable ts1 r { rotation := [], num_unique_addrs := 0 }) r
          (fun t => { rotation := t.rotation ++ [ip],
                      num_unique_addrs := t.num_unique_addrs + 1 }) =
          modifyTable (setTable ts1 r { rotation := [], num_unique_addrs := 0 }) r _ from rfl]
      rw [keysOf_modifyTable, mem_keysOf_setTable, hk1]
      simp [htw.1, htw.2]
    · rw [if_neg hc, keysOf_modifyTable, hk1]
      have hr : r ∈ keysOf ts := by
        rw [← hk1]
        exact (getTable_isSome_iff ts1 r).mp (Option.isSome_iff_ne_none.mpr hc)
      constructor
      · exact fun h => Or.inr h
      · rintro (⟨_, _, hkr⟩ | h)
        · exact hkr ▸ hr
        · exact h
  · rw [if_neg htw, hk1]
    constructor
    · exact fun h => Or.inr h
    · rintro (⟨h1', h2', _⟩ | h)
      · exact absurd ⟨h1', h2'⟩ htw
      · exact h

theorem mem_keysOf_weightLoop (lbm : String) (ps : Bool) (ip : String)
    (r : TKey) (w : Nat) (ts : Tables) (k : TKey) :
    k ∈ keysOf (weightLoop lbm ps ip r w ts) ↔
      (w ≠ 0 ∧ lbm = "twrr" ∧ ps = true ∧ k = r) ∨ k ∈ keysOf ts := by
  induction w generalizing ts with
  | zero => simp [weightLoop]
  | succ n ih =>
    rw [weightLoop, ih, mem_keysOf_weightIter]
    constructor
    · rintro (⟨_, h⟩ | h)
      · exact Or.inl ⟨Nat.succ_ne_zero n, h.1, h.2.1, h.2.2⟩
      · rcases h with h | h
        · exact Or.inl ⟨Nat.succ_ne_zero n, h⟩
        · exact Or.inr h
    · rintro (⟨_, h⟩ | h)
      · exact Or.inr (Or.inl h)
      · exact Or.inr (Or.inr h)

theorem default_mem_weightIter (lbm : String) (ps : Bool) (ip : String)
    (r : TKey) (ts : Tables) (hd : defaultKey ∈ keysOf ts) :
    defaultKey ∈ keysOf (weightIter lbm ps ip r ts) :=
  (mem_keysOf_weightIter lbm ps ip r ts defaultKey).mpr (Or.inr hd)

theorem tcount_weightLoop (lbm : String) (ps : Bool) (ip : String) (r : TKey)
    (w : Nat) (ts : Tables) (hd : defaultKey ∈ keysOf ts) (k : TKey) (x : String) :
    tcount (weightLoop lbm ps ip r w ts) k x
      = tcount ts k x + w * ((if k = defaultKey ∧ x = ip then 1 else 0)
          + (if lbm = "twrr" ∧ ps = true ∧ k = r ∧ x = ip then 1 else 0)) := by
  induction w generalizing ts with
  | zero => simp [weightLoop]
  | succ n ih =>
    rw [weightLoop, ih _ (default_mem_weightIter lbm ps ip r ts hd),
      tcount_weightIter lbm ps ip r ts hd]
    ring

theorem nucount_weightLoop (lbm : String) (ps : Bool) (ip : String) (r : TKey)
    (w : Nat) (ts : Tables) (k : TKey) :
    nucount (weightLoop lbm ps ip r w ts) k
      = nucount ts k + w * (if lbm = "twrr" ∧ ps = true ∧ k = r then 1 else 0) := by
  induction w generalizing ts with
  | zero => simp [weightLoop]
  | succ n ih =>
    rw [weightLoop, ih, nucount_weightIter]
    ring

/-- Per-member contribution to the rotation count of an IP `x` in the table
at key `k` (what one pass of the member loop adds). -/
def rotContrib (lbm : String) (ps : Bool) (fb : String) (k : TKey)
    (x : String) (e : String × PoolMember) : Nat :=
  if memberEligible ps fb e.2 = true ∧ e.2.weight ≠ 0 then
    e.2.weight * ((if k = defaultKey ∧ x = e.1 then 1 else 0)
      + (if lbm = "twrr" ∧ ps = true ∧ k = e.2.region ∧ x = e.1 then 1 else 0))
  else 0

/-- Per-member contribution to `num_unique_addrs` of the table at key `k`. -/
def nuContrib (lbm : String) (ps : Bool) (fb : String) (k : TKey)
    (e : String × PoolMember) : Nat :=
  if memberEligible ps fb e.2 = true ∧ e.2.weight ≠ 0 then
    (if k = defaultKey then 1 else 0)
      + e.2.weight * (if lbm = "twrr" ∧ ps = true ∧ k = e.2.region then 1 else 0)
  else 0

theorem tcount_memberStep (lbm : String) (ps : Bool) (fb : String)
    (ts : Tables) (e : String × PoolMember) (hd : defaultKey ∈ keysOf ts)
    (k : TKey) (x : String) :
    tcount (memberStep lbm ps fb ts e) k x
      = tcount ts k x + rotContrib lbm ps fb k x e := by
  unfold memberStep rotContrib
  by_cases he : memberEligible ps fb e.2 = true
  · rw [if_pos he]
    by_cases hw : e.2.weight = 0
    · rw [if_pos hw]
      rw [if_neg fun h => h.2 hw, Nat.add_zero]
    · rw [if_neg hw, if_pos ⟨he, hw⟩]
      have hd1 : defaultKey ∈ keysOf (modifyTable ts defaultKey fun t =>
          { t with num_unique_addrs := t.num_unique_addrs + 1 }) := by
        rw [keysOf_modifyTable]
        exact hd
      rw [tcount_weightLoop lbm ps e.1 e.2.region e.2.weight _ hd1,
        tcount_modify_rot_eq ts defaultKey k x
          (fun t => { t with num_unique_addrs := t.num_unique_addrs + 1 })
          (fun t => rfl)]
  · rw [if_neg he, if_neg fun h => he h.1, Nat.add_zero]

theorem nucount_memberStep (lbm : String) (ps : Bool) (fb : String)
    (ts : Tables) (e : String × PoolMember) (hd : defaultKey ∈ keysOf ts)
    (k : TKey) :
    nucount (memberStep lbm ps fb ts e) k
      = nucount ts k + nuContrib lbm ps fb k e := by
  unfold memberStep nuContrib
  by_cases he : memberEligible ps fb e.2 = true
  · rw [if_pos he]
    by_cases hw : e.2.weight = 0
    · rw [if_pos hw]
      rw [if_neg fun h => h.2 hw, Nat.add_zero]
    · rw [if_neg hw, if_pos ⟨he, hw⟩]
      have hsome : (getTable ts defaultKey).isSome = true :=
        (getTable_isSome_iff ts defaultKey).mpr hd
      rw [nucount_weightLoop,
        nucount_modify_inc ts defaultKey k _ (fun t => rfl) (fun _ => hsome)]
      ring
  · rw [if_neg he, if_neg fun h => he h.1, Nat.add_zero]

theorem mem_keysOf_memberStep (lbm : String) (ps : Bool) (fb : String)
    (ts : Tables) (e : String × PoolMember) (k : TKey) :
    k ∈ keysOf (memberStep lbm ps fb ts e) ↔
      (memberEligible ps fb e.2 = true ∧ e.2.weight ≠ 0 ∧
        lbm = "twrr" ∧ ps = true ∧ k = e.2.region) ∨ k ∈ keysOf ts := by
  unfold memberStep
  by_cases he : memberEligible ps fb e.2 = true
  · rw [if_pos he]
    by_cases hw : e.2.weight = 0
    · rw [if_pos hw]
      simp [he, hw]
    · rw [if_neg hw, mem_keysOf_weightLoop, keysOf_modifyTable]
      simp [he, hw]
  · rw [if_neg he]
    simp [he]

theorem tcount_foldl (lbm : String) (ps : Bool) (fb : String)
    (ms : List (String × PoolMember)) (ts : Tables)
    (hd : defaultKey ∈ keysOf ts) (k : TKey) (x : String) :
    tcount (ms.foldl (memberStep lbm ps fb) ts) k x
      = tcount ts k x + (ms.map (rotContrib lbm ps fb k x)).sum := by
  induction ms generalizing ts with
  | nil => simp
  | cons e rest ih =>
    have hd' : defaultKey ∈ keysOf (memberStep lbm ps fb ts e) :=
      (mem_keysOf_memberStep lbm ps fb ts e defaultKey).mpr (Or.inr hd)
    rw [List.foldl_cons, ih _ hd', tcount_memberStep lbm ps fb ts e hd,
      List.map_cons, List.sum_cons]
    ring

theorem nucount_foldl (lbm : String) (ps : Bool) (fb : String)
    (ms : List (String × PoolMember)) (ts : Tables)
    (hd : defaultKey ∈ keysOf ts) (k : TKey) :
    nucount (ms.foldl (memberStep lbm ps fb) ts) k
      = nucount ts k + (ms.map (nuContrib lbm ps fb k)).sum := by
  induction ms generalizing ts with
  | nil => simp
  | cons e rest ih =>
    have hd' : defaultKey ∈ keysOf (memberStep lbm ps fb ts e) :=
      (mem_keysOf_memberStep lbm ps fb ts e defaultKey).mpr (Or.inr hd)
    rw [List.foldl_cons, ih _ hd', nucount_memberStep lbm ps fb ts e hd,
      List.map_cons, List.sum_cons]
    ring

theorem mem_keysOf_foldl (lbm : String) (ps : Bool) (fb : String)
    (ms : List (String × PoolMember)) (ts : Tables) (k : TKey) :
    k ∈ keysOf (ms.foldl (memberStep lbm ps fb) ts) ↔
      (∃ e ∈ ms, memberEligible ps fb e.2 = true ∧ e.2.weight ≠ 0 ∧
        lbm = "twrr" ∧ ps = true ∧ k = e.2.region) ∨ k ∈ keysOf ts := by
  induction ms generalizing ts with
  | nil => simp
  | cons e rest ih =>
    rw [List.foldl_cons, ih, mem_keysOf_memberStep]
    constructor
    · rintro (⟨e', he', h⟩ | (h | h))
      · exact Or.inl ⟨e', List.mem_cons_of_mem e he', h⟩
      · exact Or.inl ⟨e, List.mem_cons_self e rest, h⟩
      · exact Or.inr h
    · rintro (⟨e', he', h⟩ | h)
      · rcases List.mem_cons.mp he' with rfl | hm
        · exact Or.inr (Or.inl h)
        · exact Or.inl ⟨e', hm, h⟩
      · exact Or.inr (Or.inr h)

theorem keysOf_init :
    keysOf [(defaultKey, { rotation := [], num_unique_addrs := 0 : DistTable })]
      = [defaultKey] := rfl

theorem tcount_init (k : TKey) (x : String) :
    tcount [(defaultKey, { rotation := [], num_unique_addrs := 0 : DistTable })] k x
      = 0 := by
  unfold tcount
  by_cases hk : defaultKey = k <;> simp [getTable, hk]

theorem nucount_init (k : TKey) :
    nucount [(defaultKey, { rotation := [], num_unique_addrs := 0 : DistTable })] k
      = 0 := by
  unfold nucount
  by_cases hk : defaultKey = k <;> simp [getTable, hk]

theorem default_mem_init :
    defaultKey ∈ keysOf
      [(defaultKey, { rotation := [], num_unique_addrs := 0 : DistTable })] := by
  simp [keysOf_init]

theorem tcount_buildDistTables (p : Pool) (k : TKey) (x : String) :
    tcount (buildDistTables p) k x
      = (p.members.map (rotContrib p.lb_method p.status p.fallback k x)).sum := by
  unfold buildDistTables
  rw [tcount_foldl _ _ _ _ _ default_mem_init, tcount_init, Nat.zero_add]

theorem nucount_buildDistTables (p : Pool) (k : TKey) :
    nucount (buildDistTables p) k
      = (p.members.map (nuContrib p.lb_method p.status p.fallback k)).sum := by
  unfold buildDistTables
  rw [nucount_foldl _ _ _ _ _ default_mem_init, nucount_init, Nat.zero_add]

theorem mem_keysOf_buildDistTables (p : Pool) (k : TKey) :
    k ∈ keysOf (buildDistTables p) ↔
      (∃ e ∈ p.members, memberEligible p.status p.fallback e.2 = true ∧
        e.2.weight ≠ 0 ∧ p.lb_method = "twrr" ∧ p.status = true ∧
        k = e.2.region) ∨ k = defaultKey := by
  unfold buildDistTables
  rw [mem_keysOf_foldl, keysOf_init]
  simp

/-- If, on a list with no duplicate keys, a function vanishes on every entry
whose key differs from `ip`, its sum over the list is its value at the
unique entry with key `ip`. -/
theorem sum_map_eq_single (ms : List (String × PoolMember))
    (hnd : (ms.map Prod.fst).Nodup) (ip : String) (m : PoolMember)
    (hm : (ip, m) ∈ ms) (f : String × PoolMember → Nat)
    (hf : ∀ e ∈ ms, e.1 ≠ ip → f e = 0) :
    (ms.map f).sum = f (ip, m) := by
  induction ms with
  | nil => cases hm
  | cons e rest ih =>
    rw [List.map_cons] at hnd
    have hnd' := hnd.of_cons
    have hkey : e.1 ∉ rest.map Prod.fst := (List.nodup_cons.mp hnd).1
    rw [List.map_cons, List.sum_cons]
    by_cases hip : e.1 = ip
    · have hem : e = (ip, m) := by
        rcases List.mem_cons.mp hm with h | h
        · exact h.symm
        · exact absurd (hip ▸ List.mem_map_of_mem Prod.fst h) hkey
      have hrest : (rest.map f).sum = 0 := by
        apply List.sum_eq_zero
        intro y hy
        obtain ⟨e', he', rfl⟩ := List.mem_map.mp hy
        apply hf e' (List.mem_cons_of_mem e he')
        intro h
        exact hkey (hip ▸ h ▸ List.mem_map_of_mem Prod.fst he')
      rw [hrest, hem, Nat.add_zero]
    · have hfm : (ip, m) ∈ rest := by
        rcases List.mem_cons.mp hm with h | h
        · exact absurd (congrArg Prod.fst h.symm) hip
        · exact h
      rw [hf e (List.mem_cons_self e rest) hip, Nat.zero_add]
      exact ih hnd' hfm fun e' he' => hf e' (List.mem_cons_of_mem e he')

/-- Sum of a 0/1 indicator over a list is the length of the filtered list. -/
theorem sum_map_indicator {α : Type} (ms : List α) (P : α → Bool) :
    (ms.map fun e => if P e = true then 1 else 0).sum = (ms.filter P).length := by
  induction ms with
  | nil => rfl
  | cons e rest ih =>
    rw [List.map_cons, List.sum_cons, ih]
    by_cases hP : P e = true <;> simp [List.filter_cons, hP, Nat.add_comm]

theorem finTable_to_dist_dict (p : Pool) (shuffle : List String → List String)
    (rnum rden : Nat) (k : TKey) :
    finTable (p.to_dist_dict shuffle rnum rden) k
      = (getTable (buildDistTables p) k).map (finishTable shuffle rnum rden) :=
  getTable_map (buildDistTables p) (finishTable shuffle rnum rden) k

theorem finCount_to_dist_dict (p : Pool) (shuffle : List String → List String)
    (rnum rden : Nat) (hsh : ∀ l, (shuffle l).Perm l) (k : TKey) (x : String) :
    finCount (p.to_dist_dict shuffle rnum rden) k x = tcount (buildDistTables p) k x := by
  unfold finCount tcount
  rw [finTable_to_dist_dict]
  cases hg : getTable (buildDistTables p) k with
  | none => rfl
  | some t =>
    simp only [Option.map_some]
    exact (hsh t.rotation).count_eq x

/-- `num_unique_addrs` of a finished table in the snapshot (0 when absent). -/
def finNu (d : DistDict) (k : TKey) : Nat :=
  match finTable d k with
  | some t => t.num_unique_addrs
  | none => 0

theorem finNu_to_dist_dict (p : Pool) (shuffle : List String → List String)
    (rnum rden : Nat) (k : TKey) :
    finNu (p.to_dist_dict shuffle rnum rden) k = nucount (buildDistTables p) k := by
  unfold finNu nucount
  rw [finTable_to_dist_dict]
  cases hg : getTable (buildDistTables p) k with
  | none => rfl
  | some t => rfl

theorem statusTruthy_eq_true (s : Option Bool) :
    statusTruthy s = true ↔ s = some true := by
  cases s with
  | none => simp [statusTruthy]
  | some b => cases b <;> simp [statusTruthy]

theorem foldl_memberStep_no_eligible (lbm : String) (ps : Bool) (fb : String)
    (ms : List (String × PoolMember)) (ts : Tables)
    (h : ∀ e ∈ ms, memberEligible ps fb e.2 = false) :
    ms.foldl (memberStep lbm ps fb) ts = ts := by
  induction ms generalizing ts with
  | nil => rfl
  | cons e rest ih =>
    rw [List.foldl_cons]
    have he : memberEligible ps fb e.2 = false := h e (List.mem_cons_self e rest)
    rw [show memberStep lbm ps fb ts e = ts from by
      unfold memberStep
      rw [if_neg (by simp [he])]]
    exact ih ts fun e' he' => h e' (List.mem_cons_of_mem e he')

/-- C7: `Pool.status` is `true` iff at least one member's status is `up`
(`some true`); `unknown` (`none`) and `down` (`some false`) members do not
count. (In the source, `status` is a read-only `@property` with no backing
field, recomputed from `self.members` at each access; here it is a pure
function of the member list.) -/
theorem pool_status_iff_exists_up (p : Pool) :
    p.status = true ↔ ∃ e ∈ p.members, e.2.status = some true := by
  unfold Pool.status
  rw [List.any_eq_true]
  constructor
  · rintro ⟨e, he, h⟩
    exact ⟨e, he, (statusTruthy_eq_true e.2.status).mp h⟩
  · rintro ⟨e, he, h⟩
    exact ⟨e, he, (statusTruthy_eq_true e.2.status).mpr h⟩

/-- C3: the `lb_method` field of the snapshot is `'wrr'` when the pool's
aggregate status is down and `fallback` is `'any'`, and is the pool's
configured `lb_method` in every other case. -/
theorem to_dist_dict_effective_lb_method (p : Pool)
    (shuffle : List String → List String) (rnum rden : Nat) :
    ((p.status = false ∧ p.fallback = "any") →
      (p.to_dist_dict shuffle rnum rden).lb_method = "wrr")
    ∧ (¬(p.status = false ∧ p.fallback = "any") →
      (p.to_dist_dict shuffle rnum rden).lb_method = p.lb_method) := by
  constructor
  · intro h
    show (if p.status = false ∧ p.fallback = "any" then "wrr" else p.lb_method) = "wrr"
    rw [if_pos h]
  · intro h
    show (if p.status = false ∧ p.fallback = "any" then "wrr" else p.lb_method) = p.lb_method
    rw [if_neg h]

theorem to_dist_dict_effective_lb_method_witness :
    (Pool.status
        { name := "p", monitor := "m",
          members := [("10.0.0.1",
            { ip := "10.0.0.1", name := "a", weight := 1, region := none,
              status := some false })],
          lb_method := "twrr", fallback := "any", max_addrs_returned := 1,
          last_status := none } = false ∧
      Pool.fallback
        { name := "p", monitor := "m",
          members := [("10.0.0.1",
            { ip := "10.0.0.1", name := "a", weight := 1, region := none,
              status := some false })],
          lb_method := "twrr", fallback := "any", max_addrs_returned := 1,
          last_status := none } = "any")
    ∧ (Pool.to_dist_dict
        { name := "p", monitor := "m",
          members := [("10.0.0.1",
            { ip := "10.0.0.1", name := "a", weight := 1, region := none,
              status := some false })],
          lb_method := "twrr", fallback := "any", max_addrs_returned := 1,
          last_status := none } id 0 1).lb_method = "wrr" :=
  ⟨⟨by decide, rfl⟩,
    (to_dist_dict_effective_lb_method _ id 0 1).1 ⟨by decide, rfl⟩⟩

/-- C9: `to_dist_dict` is total: for every pool it returns a snapshot whose
`max_addrs_returned` is the pool's value copied through unchanged and whose
`dist_tables` always contain the `'_default'` key (with its `rotation`,
`num_unique_addrs` and `index` fields), even when every member is
ineligible. -/
theorem to_dist_dict_total_default_present (p : Pool)
    (shuffle : List String → List String) (rnum rden : Nat) :
    (p.to_dist_dict shuffle rnum rden).max_addrs_returned = p.max_addrs_returned
    ∧ ∃ t : FinTable, finTable (p.to_dist_dict shuffle rnum rden) defaultKey = some t := by
  refine ⟨rfl, ?_⟩
  rw [finTable_to_dist_dict]
  have hmem : defaultKey ∈ keysOf (buildDistTables p) :=
    (mem_keysOf_buildDistTables p defaultKey).mpr (Or.inr rfl)
  obtain ⟨t, ht⟩ := Option.isSome_iff_exists.mp
    ((getTable_isSome_iff (buildDistTables p) defaultKey).mpr hmem)
  exact ⟨finishTable shuffle rnum rden t, by rw [ht]; rfl⟩

/-- A pool whose only member is up but has weight 0 (`fallback` is `any`). -/
def weight0UpPool : Pool :=
  { name := "p", monitor := "m",
    members := [("10.0.0.1",
      { ip := "10.0.0.1", name := "a", weight := 0, region := none,
        status := some true })],
    lb_method := "wrr", fallback := "any", max_addrs_returned := 1,
    last_status := none }

/-- C10: `Pool.status` depends only on member statuses, never on weights,
and consequently a pool with `fallback` `'any'` whose only up member has
weight 0 has aggregate status up, so the fallback branch does not engage and
the snapshot's `'_default'` table is `rotation = []`, `num_unique_addrs = 0`,
`index = 0`. -/
theorem status_ignores_weights_empty_default_any :
    (∀ (p : Pool) (f : String → PoolMember → Nat),
      Pool.status { p with members :=
        (p.members.map fun e => (e.1, { e.2 with weight := f e.1 e.2 })) } = p.status)
    ∧ weight0UpPool.fallback = "any"
    ∧ Pool.status weight0UpPool = true
    ∧ finTable (weight0UpPool.to_dist_dict id 0 1) defaultKey =
        some { rotation := [], num_unique_addrs := 0, index := 0 } := by
  refine ⟨?_, rfl, by decide, by decide⟩
  intro p f
  unfold Pool.status
  rw [List.any_map]
  rfl

/-- A `twrr` pool whose only member is up with weight 2 in region `r1`. -/
def twrrWeight2Pool : Pool :=
  { name := "p", monitor := "m",
    members := [("10.0.0.1",
      { ip := "10.0.0.1", name := "a", weight := 2, region := some "r1",
        status := some true })],
    lb_method := "twrr", fallback := "any", max_addrs_returned := 1,
    last_status := none }

/-- C6: every table's `index` satisfies
`0 <= index < max(1, len(rotation))` and is 0 on an empty rotation: the
draw `rnum / rden` lies in `[0, 1)`, so the truncated product never reaches
`len(rotation)` and is 0 when the length is 0. -/
theorem table_index_bounds (p : Pool) (shuffle : List String → List String)
    (rnum rden : Nat) (hr : rnum < rden) (k : TKey) (t : FinTable)
    (hm : (k, t) ∈ (p.to_dist_dict shuffle rnum rden).dist_tables) :
    0 ≤ t.index ∧ t.index < max 1 t.rotation.length
      ∧ (t.rotation = [] → t.index = 0) := by
  have hrden : 0 < rden := Nat.lt_of_le_of_lt (Nat.zero_le rnum) hr
  obtain ⟨kt, hkt, heq⟩ := List.mem_map.mp hm
  have ht : t = finishTable shuffle rnum rden kt.2 := (congrArg Prod.snd heq).symm
  subst ht
  refine ⟨Nat.zero_le _, ?_, ?_⟩
  · show rnum * (shuffle kt.2.rotation).length / rden
      < max 1 (shuffle kt.2.rotation).length
    set n := (shuffle kt.2.rotation).length with hn
    rcases Nat.eq_zero_or_pos n with h0 | hpos
    · rw [h0, Nat.mul_zero, Nat.zero_div]
      exact Nat.lt_of_lt_of_le Nat.one_pos (Nat.le_max_left 1 0)
    · rw [Nat.max_eq_right hpos, Nat.div_lt_iff_lt_mul hrden, Nat.mul_comm n rden]
      exact Nat.mul_lt_mul_of_lt_of_le hr (Nat.le_refl n) hpos
  · intro hrot
    show rnum * (shuffle kt.2.rotation).length / rden = 0
    rw [show shuffle kt.2.rotation = [] from hrot]
    simp

/-- Pool used to instantiate the index-bounds theorem concretely. -/
def oneUpPool : Pool :=
  { name := "p", monitor := "m",
    members := [("10.0.0.1",
      { ip := "10.0.0.1", name := "a", weight := 1, region := none,
        status := some true })],
    lb_method := "wrr", fallback := "any", max_addrs_returned := 1,
    last_status := none }

theorem table_index_bounds_witness :
    0 ≤ (⟨["10.0.0.1"], 1, 0⟩ : FinTable).index
      ∧ (⟨["10.0.0.1"], 1, 0⟩ : FinTable).index
          < max 1 (⟨["10.0.0.1"], 1, 0⟩ : FinTable).rotation.length
      ∧ ((⟨["10.0.0.1"], 1, 0⟩ : FinTable).rotation = [] →
          (⟨["10.0.0.1"], 1, 0⟩ : FinTable).index = 0) :=
  table_index_bounds oneUpPool id 0 1 (by decide) defaultKey
    ⟨["10.0.0.1"], 1, 0⟩ (by decide)

/-- A `twrr` pool whose only member is up with weight 1 in the region
literally named `'_default'` — its region key aliases the default table. -/
def aliasRegionMember : PoolMember :=
  { ip := "10.0.0.1", name := "a", weight := 1, region := some "_default",
    status := some true }

def aliasRegionPool : Pool :=
  { name := "p", monitor := "m",
    members := [("10.0.0.1", aliasRegionMember)],
    lb_method := "twrr", fallback := "any", max_addrs_returned := 1,
    last_status := none }

/-- C2 counterexample: an eligible member with weight 1 whose region is the
string `'_default'` appears twice in the `'_default'` rotation (the regional
append at line 375 aliases the default table), so the multiset-count does
not equal the weight. -/
theorem default_rotation_count_alias_cex :
    ("10.0.0.1", aliasRegionMember) ∈ aliasRegionPool.members
      ∧ memberEligible aliasRegionPool.status aliasRegionPool.fallback
          aliasRegionMember = true
      ∧ aliasRegionMember.weight = 1
      ∧ finCount (aliasRegionPool.to_dist_dict id 0 1) defaultKey "10.0.0.1" = 2 := by
  refine ⟨by decide, by decide, by decide, by decide⟩

/-- C2 (amended): provided no member's region is the literal string
`'_default'`, the multiset-count of a member's IP in the `'_default'`
rotation of the snapshot equals its weight when the member is eligible with
positive weight and 0 otherwise, a weight-0 member appears in no rotation at
all, and these counts are unaffected by the final shuffle (any permutation). -/
theorem default_rotation_count_eq_weight (p : Pool)
    (shuffle : List String → List String) (rnum rden : Nat)
    (hsh : ∀ l, (shuffle l).Perm l)
    (hnd : (p.members.map Prod.fst).Nodup)
    (hreg : ∀ e ∈ p.members, e.2.region ≠ defaultKey)
    (ip : String) (m : PoolMember) (hm : (ip, m) ∈ p.members) :
    finCount (p.to_dist_dict shuffle rnum rden) defaultKey ip
      = (if memberEligible p.status p.fallback m = true ∧ 0 < m.weight
         then m.weight else 0)
    ∧ (m.weight = 0 →
        ∀ k, finCount (p.to_dist_dict shuffle rnum rden) k ip = 0) := by
  have hvan : ∀ k₀, ∀ e ∈ p.members, e.1 ≠ ip →
      rotContrib p.lb_method p.status p.fallback k₀ ip e = 0 := by
    intro k₀ e he hne
    simp [rotContrib, Ne.symm hne]
  constructor
  · rw [finCount_to_dist_dict p shuffle rnum rden hsh, tcount_buildDistTables,
      sum_map_eq_single p.members hnd ip m hm _ (hvan defaultKey)]
    have hregm : defaultKey ≠ m.region := Ne.symm (hreg (ip, m) hm)
    by_cases he : memberEligible p.status p.fallback m = true ∧ m.weight ≠ 0
    · rw [show rotContrib p.lb_method p.status p.fallback defaultKey ip (ip, m)
          = m.weight from by simp [rotContrib, he, hregm],
        if_pos ⟨he.1, Nat.pos_of_ne_zero he.2⟩]
    · rw [show rotContrib p.lb_method p.status p.fallback defaultKey ip (ip, m)
          = 0 from by simp [rotContrib, he],
        if_neg fun h => he ⟨h.1, Nat.pos_iff_ne_zero.mp h.2⟩]
  · intro hw k
    rw [finCount_to_dist_dict p shuffle rnum rden hsh, tcount_buildDistTables,
      sum_map_eq_single p.members hnd ip m hm _ (hvan k)]
    simp [rotContrib, hw]

/-- A `twrr` pool (status up) with two healthy members in distinct regions
and one down member, with no-duplicate keys and no `'_default'` region. -/
def twoRegionPool : Pool :=
  { name := "p", monitor := "m",
    members := [
      ("10.0.0.1",
        { ip := "10.0.0.1", name := "a", weight := 2, region := some "r1",
          status := some true }),
      ("10.0.0.2",
        { ip := "10.0.0.2", name := "b", weight := 3, region := some "r2",
          status := some false })],
    lb_method := "twrr", fallback := "refuse", max_addrs_returned := 1,
    last_status := none }

/-- The first member of `twoRegionPool`. -/
def twoRegionMemberA : PoolMember :=
  { ip := "10.0.0.1", name := "a", weight := 2, region := some "r1",
    status := some true }

theorem default_rotation_count_eq_weight_witness :
    finCount (twoRegionPool.to_dist_dict id 0 1) defaultKey "10.0.0.1"
      = (if memberEligible twoRegionPool.status twoRegionPool.fallback
            twoRegionMemberA = true ∧ 0 < twoRegionMemberA.weight
         then twoRegionMemberA.weight else 0) :=
  (default_rotation_count_eq_weight twoRegionPool id 0 1
    (fun l => List.Perm.refl l) (by decide) (by decide) "10.0.0.1"
    twoRegionMemberA (by decide)).1

/-- A `twrr` pool whose only member is up but has weight 0. -/
def twrrUpWeight0Pool : Pool :=
  { name := "p", monitor := "m",
    members := [("10.0.0.1",
      { ip := "10.0.0.1", name := "a", weight := 0, region := some "r1",
        status := some true })],
    lb_method := "twrr", fallback := "any", max_addrs_returned := 1,
    last_status := none }

/-- C4 counterexample: a `twrr` pool with aggregate status up whose only up
member has weight 0 produces a snapshot whose `dist_tables` hold only the
`'_default'` key, refuting the claimed "regional keys iff `twrr` and status
up". -/
theorem regional_tables_weight0_cex :
    twrrUpWeight0Pool.lb_method = "twrr"
      ∧ Pool.status twrrUpWeight0Pool = true
      ∧ keysOf (twrrUpWeight0Pool.to_dist_dict id 0 1).dist_tables
          = [defaultKey] := by
  refine ⟨rfl, by decide, by decide⟩

/-- C4 (amended): the snapshot's `dist_tables` contain a key `k` iff `k` is
`'_default'` or `lb_method` is `'twrr'`, the pool status is up, and some up
member with positive weight has region `k`; in every other case
`'_default'` is the only key. -/
theorem dist_tables_keys_iff (p : Pool) (shuffle : List String → List String)
    (rnum rden : Nat) (k : TKey) :
    k ∈ keysOf (p.to_dist_dict shuffle rnum rden).dist_tables ↔
      k = defaultKey ∨ (p.lb_method = "twrr" ∧ p.status = true ∧
        ∃ e ∈ p.members, e.2.status = some true ∧ 0 < e.2.weight ∧
          k = e.2.region) := by
  have hkeys : keysOf (p.to_dist_dict shuffle rnum rden).dist_tables
      = keysOf (buildDistTables p) := by
    show ((buildDistTables p).map fun kt =>
      (kt.1, finishTable shuffle rnum rden kt.2)).map Prod.fst = _
    rw [List.map_map]
    rfl
  rw [hkeys, mem_keysOf_buildDistTables]
  constructor
  · rintro (⟨e, he, helig, hw, htw, hps, hk⟩ | hdef)
    · rw [hps] at helig
      simp only [memberEligible, Bool.not_true, Bool.false_and,
        Bool.or_false] at helig
      exact Or.inr ⟨htw, hps, e, he, (statusTruthy_eq_true e.2.status).mp helig,
        Nat.pos_of_ne_zero hw, hk⟩
    · exact Or.inl hdef
  · rintro (hdef | ⟨htw, hps, e, he, hst, hw, hk⟩)
    · exact Or.inr hdef
    · refine Or.inl ⟨e, he, ?_, Nat.pos_iff_ne_zero.mp hw, htw, hps, hk⟩
      simp [memberEligible, (statusTruthy_eq_true e.2.status).mpr hst]

/-- A `twrr` pool whose only member is up with weight 2 in the region
literally named `'_default'` (for the `num_unique_addrs` counterexample). -/
def aliasRegionPool5 : Pool :=
  { name := "p", monitor := "m",
    members := [("10.0.0.1",
      { ip := "10.0.0.1", name := "a", weight := 1, region := some "_default",
        status := some true })],
    lb_method := "twrr", fallback := "any", max_addrs_returned := 1,
    last_status := none }

/-- C5 counterexample: with a single eligible weight-1 member whose region
is the string `'_default'`, the regional increment at line 377 aliases the
default table, so `'_default'.num_unique_addrs` is 2 while the count of
distinct eligible weight>0 members is 1. -/
theorem default_num_unique_alias_cex :
    finNu (aliasRegionPool5.to_dist_dict id 0 1) defaultKey = 2
      ∧ (aliasRegionPool5.members.filter fun e =>
          memberEligible aliasRegionPool5.status aliasRegionPool5.fallback e.2
            && decide (0 < e.2.weight)).length = 1 := by
  refine ⟨by decide, by decide⟩

/-- C5 (amended): provided no member's region is the literal string
`'_default'`, the `'_default'` table's `num_unique_addrs` equals the number
of distinct eligible members with positive weight; and when every member is
down with `fallback` `'refuse'` the `'_default'` table is
`rotation = []`, `num_unique_addrs = 0`, `index = 0`. -/
theorem default_num_unique_eq_eligible_count (p : Pool)
    (shuffle : List String → List String) (rnum rden : Nat)
    (hsh : ∀ l, (shuffle l).Perm l)
    (hreg : ∀ e ∈ p.members, e.2.region ≠ defaultKey) :
    finNu (p.to_dist_dict shuffle rnum rden) defaultKey
      = (p.members.filter fun e =>
          memberEligible p.status p.fallback e.2 && decide (0 < e.2.weight)).length
    ∧ ((∀ e ∈ p.members, e.2.status = some false) ∧ p.fallback = "refuse" →
        finTable (p.to_dist_dict shuffle rnum rden) defaultKey =
          some { rotation := [], num_unique_addrs := 0, index := 0 }) := by
  constructor
  · rw [finNu_to_dist_dict, nucount_buildDistTables]
    have hmap : p.members.map (nuContrib p.lb_method p.status p.fallback defaultKey)
        = p.members.map (fun e =>
            if (memberEligible p.status p.fallback e.2
                && decide (0 < e.2.weight)) = true then 1 else 0) := by
      apply List.map_congr_left
      intro e he
      have hregm : defaultKey ≠ e.2.region := Ne.symm (hreg e he)
      by_cases hc : memberEligible p.status p.fallback e.2 = true ∧ e.2.weight ≠ 0
      · rw [show nuContrib p.lb_method p.status p.fallback defaultKey e = 1 from by
          simp [nuContrib, hc, hregm]]
        rw [if_pos (by simp [hc.1, Nat.pos_of_ne_zero hc.2])]
      · rw [show nuContrib p.lb_method p.status p.fallback defaultKey e = 0 from by
          simp [nuContrib, hc]]
        rw [if_neg fun h => hc ?_]
        have h' := (Bool.and_eq_true _ _).mp h
        exact ⟨h'.1, Nat.pos_iff_ne_zero.mp (of_decide_eq_true h'.2)⟩
    rw [hmap, sum_map_indicator]
  · rintro ⟨hall, hfb⟩
    have hnoel : ∀ e ∈ p.members, memberEligible p.status p.fallback e.2 = false := by
      intro e he
      simp [memberEligible, hall e he, hfb, statusTruthy]
    have hbuild : buildDistTables p
        = [(defaultKey, { rotation := [], num_unique_addrs := 0 })] :=
      foldl_memberStep_no_eligible _ _ _ _ _ hnoel
    have hs : shuffle [] = [] := (hsh []).eq_nil
    rw [finTable_to_dist_dict, hbuild]
    simp [getTable, finishTable, hs]

/-- A pool whose only member is down, with `fallback` `'refuse'`. -/
def downRefusePool : Pool :=
  { name := "p", monitor := "m",
    members := [("10.0.0.1",
      { ip := "10.0.0.1", name := "a", weight := 2, region := none,
        status := some false })],
    lb_method := "wrr", fallback := "refuse", max_addrs_returned := 1,
    last_status := none }

theorem default_num_unique_eq_eligible_count_witness :
    finNu (downRefusePool.to_dist_dict id 0 1) defaultKey
        = (downRefusePool.members.filter fun e =>
            memberEligible downRefusePool.status downRefusePool.fallback e.2
              && decide (0 < e.2.weight)).length
      ∧ finTable (downRefusePool.to_dist_dict id 0 1) defaultKey =
          some { rotation := [], num_unique_addrs := 0, index := 0 } :=
  ⟨(default_num_unique_eq_eligible_count downRefusePool id 0 1
      (fun l => List.Perm.refl l) (by decide)).1,
    (default_num_unique_eq_eligible_count downRefusePool id 0 1
      (fun l => List.Perm.refl l) (by decide)).2 ⟨by decide, rfl⟩⟩

theorem mkPoolMember_ok (v : String → Bool) (ip n : String) (w : Int)
    (r : Option String) (pm : PoolMember)
    (h : mkPoolMember v ip n w r = .ok pm) :
    pm.region = r ∧ pm.ip = ip ∧ pm.name = n ∧ pm.status = none := by
  unfold mkPoolMember at h
  split_ifs at h
  cases h
  exact ⟨rfl, rfl, rfl, rfl⟩

theorem mkPool_ok (name monitor : String) (members : List (String × PoolMember))
    (lbm fb : String) (mar : Int) (pool : Pool)
    (h : mkPool name monitor members lbm fb mar = .ok pool) :
    pool.members = members ∧ pool.lb_method = lbm ∧ pool.fallback = fb := by
  unfold mkPool at h
  split_ifs at h
  cases h
  exact ⟨rfl, rfl, rfl⟩

theorem buildMembers_first_unresolvable (v : String → Bool)
    (g : String → Option String) (pn : String)
    (pre : List (String × MemberConfig)) (ip : String) (mc : MemberConfig)
    (rest : List (String × MemberConfig))
    (hpre : ∀ e ∈ pre, regionTruthy (g e.1) = true ∧
      ∃ pm, mkPoolMember v e.1 e.2.name e.2.weight (g e.1) = .ok pm)
    (hip : regionTruthy (g ip) = false) :
    buildMembers v g pn "twrr" (pre ++ (ip, mc) :: rest)
      = .error ("Unable to determine region for pool " ++ pn ++
          " member " ++ ip ++ "(" ++ mc.name ++ ")") := by
  induction pre with
  | nil =>
    rw [List.nil_append]
    unfold buildMembers
    rw [if_pos rfl, if_pos hip]
  | cons e pre ih =>
    obtain ⟨ht, pm, hpm⟩ := hpre e (List.mem_cons_self e pre)
    have hrec := ih fun e' he' => hpre e' (List.mem_cons_of_mem e he')
    rw [List.cons_append]
    obtain ⟨eip, emc⟩ := e
    unfold buildMembers
    rw [if_pos rfl, if_neg (by rw [ht]; exact fun h => Bool.true_eq_false.mp h)]
    simp only [hpm, hrec]

theorem buildMembers_ok_mem (v : String → Bool) (g : String → Option String)
    (pn lbm : String) (ms : List (String × MemberConfig))
    (l : List (String × PoolMember)) (h : buildMembers v g pn lbm ms = .ok l) :
    ∀ e ∈ ms, ∃ pm, (e.1, pm) ∈ l ∧
      (lbm = "twrr" → pm.region = g e.1 ∧ regionTruthy (g e.1) = true) := by
  induction ms generalizing l with
  | nil => intro e he; cases he
  | cons e0 rest ih =>
    obtain ⟨eip, emc⟩ := e0
    unfold buildMembers at h
    by_cases hlb : lbm = "twrr"
    · rw [if_pos hlb] at h
      by_cases hrt : regionTruthy (g eip) = false
      · rw [if_pos hrt] at h
        cases h
      · rw [if_neg hrt] at h
        simp only [] at h
        cases hpm : mkPoolMember v eip emc.name emc.weight (g eip) with
        | error err => rw [hpm] at h; cases h
        | ok pm =>
          rw [hpm] at h
          cases hrest : buildMembers v g pn lbm rest with
          | error err => rw [hrest] at h; cases h
          | ok l' =>
            rw [hrest] at h
            cases h
            intro e he
            rcases List.mem_cons.mp he with rfl | hmem
            · exact ⟨pm, List.mem_cons_self _ _,
                fun _ => ⟨(mkPoolMember_ok v eip emc.name emc.weight (g eip) pm hpm).1,
                  Bool.of_not_eq_false hrt⟩⟩
            · obtain ⟨pm', hpm', himp⟩ := ih l' hrest e hmem
              exact ⟨pm', List.mem_cons_of_mem _ hpm', himp⟩
    · rw [if_neg hlb] at h
      simp only [] at h
      cases hpm : mkPoolMember v eip emc.name emc.weight none with
      | error err => rw [hpm] at h; cases h
      | ok pm =>
        rw [hpm] at h
        cases hrest : buildMembers v g pn lbm rest with
        | error err => rw [hrest] at h; cases h
        | ok l' =>
          rw [hrest] at h
          cases h
          intro e he
          rcases List.mem_cons.mp he with rfl | hmem
          · exact ⟨pm, List.mem_cons_self _ _, fun hc => absurd hc hlb⟩
          · obtain ⟨pm', hpm', himp⟩ := ih l' hrest e hmem
            exact ⟨pm', List.mem_cons_of_mem _ hpm', himp⟩

theorem buildMembers_wrr_indep (v : String → Bool)
    (g g' : String → Option String) (pn : String)
    (ms : List (String × MemberConfig)) :
    buildMembers v g pn "wrr" ms = buildMembers v g' pn "wrr" ms := by
  induction ms with
  | nil => rfl
  | cons e rest ih =>
    obtain ⟨eip, emc⟩ := e
    unfold buildMembers
    rw [if_neg (by decide : ¬("wrr" = "twrr")),
      if_neg (by decide : ¬("wrr" = "twrr")), ih]

theorem buildMembers_wrr_region_none (v : String → Bool)
    (g : String → Option String) (pn : String)
    (ms : List (String × MemberConfig)) (l : List (String × PoolMember))
    (h : buildMembers v g pn "wrr" ms = .ok l) :
    ∀ e ∈ l, e.2.region = none := by
  induction ms generalizing l with
  | nil =>
    unfold buildMembers at h
    cases h
    intro e he
    cases he
  | cons e0 rest ih =>
    obtain ⟨eip, emc⟩ := e0
    unfold buildMembers at h
    rw [if_neg (by decide : ¬("wrr" = "twrr"))] at h
    simp only [] at h
    cases hpm : mkPoolMember v eip emc.name emc.weight none with
    | error err => rw [hpm] at h; cases h
    | ok pm =>
      rw [hpm] at h
      cases hrest : buildMembers v g pn "wrr" rest with
      | error err => rw [hrest] at h; cases h
      | ok l' =>
        rw [hrest] at h
        cases h
        intro e he
        rcases List.mem_cons.mp he with rfl | hmem
        · exact (mkPoolMember_ok v eip emc.name emc.weight none pm hpm).1
        · exact ih l' hrest e hmem

/-- C8: region resolution in `from_config_dict`. Under `lb_method 'twrr'`,
loading fails with the region error of the first member whose topology
lookup result is falsy (given that all earlier members resolve and
validate), a successful load implies every config member is present with a
truthy resolved region (no member is silently omitted), and under
`lb_method 'wrr'` the result does not depend on the topology lookup at all
and every loaded member's region is left unset. -/
theorem from_config_dict_region_resolution (registered : List String)
    (v : String → Bool) (g g' : String → Option String) (name : String)
    (obj : PoolConfig) :
    (∀ pre ip mc rest,
      obj.lb_method = "twrr" →
      registered.contains obj.monitor = true →
      obj.monitor_params ≠ some [] →
      obj.members = pre ++ (ip, mc) :: rest →
      (∀ e ∈ pre, regionTruthy (g e.1) = true ∧
        ∃ pm, mkPoolMember v e.1 e.2.name e.2.weight (g e.1) = .ok pm) →
      regionTruthy (g ip) = false →
      Pool.from_config_dict registered v g name obj =
        .error ("Unable to determine region for pool " ++ name ++
          " member " ++ ip ++ "(" ++ mc.name ++ ")"))
    ∧ (∀ pool, Pool.from_config_dict registered v g name obj = .ok pool →
        ∀ e ∈ obj.members, ∃ pm, (e.1, pm) ∈ pool.members ∧
          (obj.lb_method = "twrr" →
            pm.region = g e.1 ∧ regionTruthy (g e.1) = true))
    ∧ (obj.lb_method = "wrr" →
        Pool.from_config_dict registered v g name obj =
          Pool.from_config_dict registered v g' name obj
        ∧ ∀ pool, Pool.from_config_dict registered v g name obj = .ok pool →
            ∀ e ∈ pool.members, e.2.region = none) := by
  refine ⟨?_, ?_, ?_⟩
  · intro pre ip mc rest hlb hmon hparams hmem hpre hip
    unfold Pool.from_config_dict
    rw [if_neg (by rw [hmon]; exact fun h => Bool.true_eq_false.mp h),
      if_neg hparams, if_neg (by rw [hmem]; exact List.append_ne_nil_of_right_ne_nil _ (List.cons_ne_nil _ _)),
      hmem, hlb, buildMembers_first_unresolvable v g name pre ip mc rest hpre hip]
  · intro pool hok e he
    unfold Pool.from_config_dict at hok
    split_ifs at hok
    cases hbm : buildMembers v g name obj.lb_method obj.members with
    | error err => rw [hbm] at hok; cases hok
    | ok members =>
      rw [hbm] at hok
      obtain ⟨pm, hpm, himp⟩ := buildMembers_ok_mem v g name obj.lb_method
        obj.members members hbm e he
      refine ⟨pm, ?_, himp⟩
      rw [(mkPool_ok name obj.monitor members obj.lb_method
        (obj.fallback.getD "any") (obj.max_addrs_returned.getD 1) pool hok).1]
      exact hpm
  · intro hlb
    constructor
    · unfold Pool.from_config_dict
      rw [hlb, buildMembers_wrr_indep v g g' name obj.members]
    · intro pool hok
      unfold Pool.from_config_dict at hok
      split_ifs at hok
      rw [hlb] at hok
      cases hbm : buildMembers v g name "wrr" obj.members with
      | error err => rw [hbm] at hok; cases hok
      | ok members =>
        rw [hbm] at hok
        rw [(mkPool_ok name obj.monitor members "wrr"
          (obj.fallback.getD "any") (obj.max_addrs_returned.getD 1) pool hok).1]
        exact buildMembers_wrr_region_none v g name obj.members members hbm

theorem from_config_dict_region_resolution_witness :
    Pool.from_config_dict ["tcp"] (fun _ => true) (fun _ => none) "p"
        { monitor := "tcp", monitor_params := none, lb_method := "twrr",
          members := [("10.0.0.1", { name := "s", weight := 1 })],
          fallback := none, max_addrs_returned := none }
      = .error "Unable to determine region for pool p member 10.0.0.1(s)" :=
  (from_config_dict_region_resolution ["tcp"] (fun _ => true) (fun _ => none)
      (fun _ => some "r") "p"
      { monitor := "tcp", monitor_params := none, lb_method := "twrr",
        members := [("10.0.0.1", { name := "s", weight := 1 })],
        fallback := none, max_addrs_returned := none }).1
    [] "10.0.0.1" { name := "s", weight := 1 } [] rfl (by decide)
    (by simp) rfl (fun e he => absurd he (List.not_mem_nil e)) rfl

/-- C1 (evaluation at the failing input): under `twrr` with pool status up,
a single eligible member of weight 2 in region `r1` yields a regional table
whose `num_unique_addrs` is 2 — the sum of weights — although the count of
distinct eligible, weight>0 members of that region is 1: line 377 increments
the regional counter inside the `for i in range(member.weight)` loop,
unlike line 359 for `'_default'`. -/
theorem twrr_regional_num_unique_addrs_eval :
    finNu (twrrWeight2Pool.to_dist_dict id 0 1) (some "r1") = 2
    ∧ (twrrWeight2Pool.members.filter fun e =>
        memberEligible twrrWeight2Pool.status twrrWeight2Pool.fallback e.2
          && decide (0 < e.2.weight)
          && decide (e.2.region = some "r1")).length = 1
    ∧ finNu (twrrWeight2Pool.to_dist_dict id 0 1) defaultKey = 1 := by
  refine ⟨by decide, by decide, by decide⟩
